import Mathlib

/-!
Shallow embedding of the `rust-ffmpeg-gif-maker` crate (files
`src/time_parsing.rs`, `src/converter.rs`, `src/lib.rs`) together with
theorems about its behaviour.

Rust strings are modelled as `List Char`; Rust `std::time::Duration`
values produced by `Duration::from_millis` are modelled by their exact
number of milliseconds (a `Nat`); Rust `u64` arithmetic is modelled on
`Nat` with an explicit reduction modulo `2 ^ 64` where overflow can
occur.  The string helpers below reproduce the exact semantics of the
Rust standard-library methods used by the crate (`str::split`,
`str::splitn`, `str::contains`, `str::replace`,
`str::split_ascii_whitespace`, `u64::from_str`).
-/

namespace GifMaker

/-- `2 ^ 64`, the modulus of Rust `u64` arithmetic. -/
def U64_MOD : Nat := 2 ^ 64

/-- Model of Rust `char::is_ascii_whitespace`: space, horizontal tab,
line feed, form feed, carriage return. -/
def isAsciiWhitespace (c : Char) : Bool :=
  c == ' ' || c == '\t' || c == '\n' || c == '\x0c' || c == '\r'

/-- Model of Rust `str::split(sep : char)`: splits at every occurrence of
the character, keeping empty pieces; the empty string yields `[[]]`. -/
def splitChar (sep : Char) : List Char → List (List Char)
  | [] => [[]]
  | c :: s =>
    if c = sep then [] :: splitChar sep s
    else
      match splitChar sep s with
      | [] => [[c]]
      | h :: t => (c :: h) :: t

/-- Leftmost occurrence of the pattern `pat` in `s`: returns the text
before and after the first match, or `none` when `pat` does not occur.
This is the primitive from which the multi-character `splitn`, `split`
and `replace` of the Rust standard library are modelled. -/
def findSplit (pat : List Char) : List Char → Option (List Char × List Char)
  | [] => if pat.isPrefixOf ([] : List Char) then some ([], []) else none
  | c :: s =>
    if pat.isPrefixOf (c :: s) then some ([], List.drop pat.length (c :: s))
    else
      match findSplit pat s with
      | none => none
      | some (a, b) => some (c :: a, b)

/-- Model of Rust `str::contains(pat : &str)`. -/
def containsStr (pat : List Char) : List Char → Bool
  | [] => pat.isEmpty
  | c :: s => pat.isPrefixOf (c :: s) || containsStr pat s

/-- Model of Rust `str::splitn(2, pat)` (collected to a list): at most
two pieces, split at the first occurrence of `pat`. -/
def splitnTwo (pat : List Char) (s : List Char) : List (List Char) :=
  match findSplit pat s with
  | none => [s]
  | some (a, b) => [a, b]

/-- Fuel-indexed worker for `splitStr`; the fuel bounds the number of
split pieces, and `s.length + 1` is always sufficient for a non-empty
pattern. -/
def splitStrGas (pat : List Char) : Nat → List Char → List (List Char)
  | 0, s => [s]
  | g + 1, s =>
    match findSplit pat s with
    | none => [s]
    | some (a, b) => a :: splitStrGas pat g b

/-- Model of Rust `str::split(pat : &str)` (collected to a list), for a
non-empty pattern: splits at every non-overlapping leftmost occurrence. -/
def splitStr (pat : List Char) (s : List Char) : List (List Char) :=
  splitStrGas pat (s.length + 1) s

/-- Fuel-indexed worker for `replaceStr`; `s.length` fuel is always
sufficient for a non-empty pattern. -/
def replaceStrGas (pat rep : List Char) : Nat → List Char → List Char
  | 0, s => s
  | _ + 1, [] => []
  | g + 1, c :: s =>
    if pat.isPrefixOf (c :: s) then
      rep ++ replaceStrGas pat rep g (List.drop pat.length (c :: s))
    else c :: replaceStrGas pat rep g s

/-- Model of Rust `str::replace(pat, rep)` for a non-empty pattern:
replaces every non-overlapping leftmost occurrence. -/
def replaceStr (pat rep : List Char) (s : List Char) : List Char :=
  replaceStrGas pat rep s.length s

/-- Worker for `splitAsciiWhitespace`; `acc` holds the current word,
reversed. -/
def splitAsciiWhitespaceAux (acc : List Char) : List Char → List (List Char)
  | [] => if acc.isEmpty then [] else [acc.reverse]
  | c :: s =>
    if isAsciiWhitespace c then
      if acc.isEmpty then splitAsciiWhitespaceAux [] s
      else acc.reverse :: splitAsciiWhitespaceAux [] s
    else splitAsciiWhitespaceAux (c :: acc) s

/-- Model of Rust `str::split_ascii_whitespace` (collected to a list):
maximal runs of non-whitespace characters, empty pieces discarded. -/
def splitAsciiWhitespace (s : List Char) : List (List Char) :=
  splitAsciiWhitespaceAux [] s

/-- Is `c` an ASCII decimal digit? (`char::to_digit(10)` succeeds). -/
def isDigitChar (c : Char) : Bool :=
  '0' ≤ c && c ≤ '9'

/-- Numeric value of an ASCII digit. -/
def digitVal (c : Char) : Nat := c.toNat - '0'.toNat

/-- Digit-accumulation loop of Rust `u64::from_str`: consumes decimal
digits left to right with a checked multiply-add, failing on any
non-digit character and on overflow past `u64::MAX`. -/
def parseU64Digits (acc : Nat) : List Char → Option Nat
  | [] => some acc
  | c :: cs =>
    if isDigitChar c then
      if acc * 10 + digitVal c < U64_MOD then parseU64Digits (acc * 10 + digitVal c) cs
      else none
    else none

/-- Model of Rust `str::parse::<u64>()` (`u64::from_str`): an optional
leading `+`, then one or more ASCII digits, with overflow check. -/
def parseU64 (s : List Char) : Option Nat :=
  match s with
  | [] => none
  | c :: cs =>
    if c = '+' then
      match cs with
      | [] => none
      | _ => parseU64Digits 0 cs
    else parseU64Digits 0 (c :: cs)

/-- Embedding of `duration_from_ffmpeg_time_string`
(`src/time_parsing.rs` lines 12-77), logging stripped.  Splits on `.`
into exactly two pieces, splits the first on `:` into exactly three,
parses fraction / seconds / minutes / hours in that order as `u64`,
rejects a fraction `≥ 1000` and seconds or minutes `≥ 60`, and returns
`Duration::from_millis` of
`milliseconds + seconds*1000 + minutes*60*1000 + hours*60*60*1000`.
The `u64` sum is reduced modulo `2 ^ 64` (release-mode wrapping
arithmetic; composing the per-operation wrap-arounds is equivalent to a
single final reduction). -/
def duration_from_ffmpeg_time_string (s : List Char) : Option Nat :=
  match splitChar '.' s with
  | [intPart, fracPart] =>
    match splitChar ':' intPart with
    | [hStr, mStr, sStr] =>
      match parseU64 fracPart with
      | none => none
      | some milliseconds =>
        if milliseconds ≥ 1000 then none
        else
          match parseU64 sStr with
          | none => none
          | some seconds =>
            if seconds ≥ 60 then none
            else
              match parseU64 mStr with
              | none => none
              | some minutes =>
                if minutes ≥ 60 then none
                else
                  match parseU64 hStr with
                  | none => none
                  | some hours =>
                    some ((milliseconds + seconds * 1000 + minutes * 60 * 1000 +
                      hours * 60 * 60 * 1000) % U64_MOD)
    | _ => none
  | _ => none

/-- `PATTERN_1` of `try_extract_frame_time`: `"\nframe="`. -/
def FRAME_PAT : List Char := "\nframe=".data

/-- `PATTERN_2` of `try_extract_frame_time`: `"time="`. -/
def TIME_PAT : List Char := "time=".data

/-- Tail of `try_extract_frame_time` (`src/time_parsing.rs` lines
97-106): in one piece of the split text, find the first
whitespace-separated token starting with `time=`, strip every `time=`
occurrence from it, and decode the remainder as a timestamp. -/
def extract_time_token (piece : List Char) : Option Nat :=
  match (splitAsciiWhitespace piece).find? (fun t => TIME_PAT.isPrefixOf t) with
  | none => none
  | some time => duration_from_ffmpeg_time_string (replaceStr TIME_PAT [] time)

/-- Embedding of `try_extract_frame_time` (`src/time_parsing.rs` lines
79-107): split the text on `"\nframe="`, keep the last piece (the whole
text when the pattern is absent — the split of any text has at least one
piece, so the `count < 1` guard of the source never fires), and decode
its first `time=` token. -/
def try_extract_frame_time (s : List Char) : Option Nat :=
  let splitted := splitStr FRAME_PAT s
  if splitted.length < 1 then none
  else extract_time_token splitted.getLast!

/-- `PATTERN_1` of `try_extract_duration`: `"\n  Duration: "`. -/
def DUR_P1 : List Char := "\n  Duration: ".data

/-- `PATTERN_2` of `try_extract_duration`: `", start: "`. -/
def DUR_P2 : List Char := ", start: ".data

/-- Loop body of `try_extract_duration` (`src/time_parsing.rs` lines
120-127): for each component of `splitn(2, "\n  Duration: ")`, if it
contains `", start: "`, return the decode of the text before the first
`", start: "` (the `next()` of a `splitn` iterator is always `Some`, so
the inner `if let` always returns). -/
def try_extract_duration_go : List (List Char) → Option Nat
  | [] => none
  | comp :: rest =>
    if containsStr DUR_P2 comp then
      match (splitnTwo DUR_P2 comp).head? with
      | some time => duration_from_ffmpeg_time_string time
      | none => try_extract_duration_go rest
    else try_extract_duration_go rest

/-- Embedding of `try_extract_duration` (`src/time_parsing.rs` lines
109-130). -/
def try_extract_duration (s : List Char) : Option Nat :=
  try_extract_duration_go (splitnTwo DUR_P1 s)

/-- Model of the `f64` values reachable in `progress_from_durations`:
NaN, positive infinity, or a finite value.  Finite values are modelled
as exact rationals: the conversions `u128 as f64` and the division are
taken exact instead of correctly rounded.  Every property proved below
about this model (division-by-zero classification, NaN/infinity
handling of `min`, clamping, monotonicity) is preserved by the
monotone round-to-nearest of real IEEE-754 arithmetic. -/
inductive F64 : Type
  | nan : F64
  | posInf : F64
  | val : ℚ → F64
deriving DecidableEq

/-- IEEE-754 `<=` on the modelled values: comparisons with NaN are
false, `+∞` dominates every finite value. -/
def F64.le : F64 → F64 → Prop
  | .val a, .val b => a ≤ b
  | .val _, .posInf => True
  | .posInf, .posInf => True
  | _, _ => False

/-- `f64` division for non-negative finite operands: `0.0 / 0.0` is NaN,
`x / 0.0` with `x > 0` is `+∞`, otherwise the exact quotient. -/
def f64Div (a b : ℚ) : F64 :=
  if b = 0 then (if a = 0 then .nan else .posInf) else .val (a / b)

/-- Model of Rust `f64::min(self, other)` with a finite `other`: a NaN
operand is ignored (the other operand is returned), `+∞` is larger than
every finite value. -/
def f64Min (x : F64) (other : ℚ) : F64 :=
  match x with
  | .nan => .val other
  | .posInf => .val other
  | .val q => .val (min q other)

/-- Embedding of `progress_from_durations` (`src/time_parsing.rs` lines
132-137): both durations are taken as whole milliseconds (exactly
`Duration::as_millis` for durations built by `Duration::from_millis`),
converted to `f64`, divided, and clamped with `f64::min(_, 1.0)`. -/
def progress_from_durations (total processed : Nat) : F64 :=
  f64Min (f64Div (processed : ℚ) (total : ℚ)) 1

/-- Embedding of the `Settings` structure (`src/lib.rs` lines 10-19).
`u16` fields are modelled as `Nat` (no arithmetic is performed on
them). -/
structure Settings : Type where
  ffmpeg_path : Option String
  video_path : String
  gif_fps : Nat
  gif_width : Nat
deriving DecidableEq

/-- `Settings::STANDARD_FPS` (`src/lib.rs` line 26). -/
def Settings.STANDARD_FPS : Nat := 10

/-- Embedding of `Settings::with_standard_fps` (`src/lib.rs` lines
30-37). -/
def Settings.with_standard_fps (video_path : String) (width : Nat) : Settings :=
  { ffmpeg_path := none
    video_path := video_path
    gif_fps := Settings.STANDARD_FPS
    gif_width := width }

/-- Embedding of the `Settings::ffmpeg_path` setter (`src/lib.rs` lines
41-46); named `set_ffmpeg_path` because the Rust method shares its name
with the field. -/
def Settings.set_ffmpeg_path (s : Settings) (path : String) : Settings :=
  { s with ffmpeg_path := some path }

/-- Embedding of `Settings::generate_filter_complex` (`src/lib.rs` lines
50-55): the `format!` template instantiated at the frame rate and the
width. -/
def Settings.generate_filter_complex (s : Settings) : String :=
  "fps=" ++ toString s.gif_fps ++ ",scale=" ++ toString s.gif_width ++
    ":-1[s]; [s]split[a][b]; [a]palettegen[palette]; [b][palette]paletteuse"

/-- Embedding of the `Error` enum (`src/lib.rs` lines 60-80).  The
`std::io::Error` payload of `ChildProcess` carries no information used
by the converter, so it is dropped. -/
inductive ConvError : Type
  | exitCode : Int → ConvError
  | cancelled : ConvError
  | childProcess : ConvError
  | emptyStdout : ConvError
deriving DecidableEq

/-- Embedding of the `Message` enum (`src/lib.rs` lines 92-111): the
events the converter emits to the application. -/
inductive Event : Type
  | success : List Nat → Event
  | error : ConvError → Event
  | progress : F64 → Event
  | videoDuration : Nat → Event
  | done : Event
deriving DecidableEq

/-- Events emitted by the stdin thread (`src/converter.rs` lines
173-280) over its whole run: exactly one `Error(Cancelled)` when a
`Cancel` command is received, nothing when the loop exits because the
job ended or the command channel closed. -/
def stdin_thread_run (gotCancel : Bool) : List Event :=
  if gotCancel then [Event.error ConvError.cancelled] else []

/-- Result of the stdout thread: the events it sent and the final value
of the shared `job_ended` flag. -/
structure StdoutResult : Type where
  events : List Event
  ended : Bool
deriving DecidableEq

/-- Embedding of the stdout thread body (`src/converter.rs` lines
286-361): after `read_to_end` fills `buf`, the thread reads the shared
`job_cancelled` flag; if it is unset it emits `Error(EmptyStdout)` for
an empty buffer and `Success(buf)` otherwise, and if it is set it emits
nothing; in every case it then sets the shared `job_ended` flag to
`true` as its final action before the thread exits. -/
def stdout_thread_run (job_cancelled : Bool) (buf : List Nat) : StdoutResult :=
  let events :=
    if !job_cancelled then
      if buf.isEmpty then [Event.error ConvError.emptyStdout]
      else [Event.success buf]
    else []
  { events := events, ended := true }

/-- One iteration of the stderr thread loop (`src/converter.rs` lines
404-481) on a non-empty chunk, for the uncancelled path: state is the
accumulated buffer, the parsed duration, and the events emitted so
far. -/
def stderr_step (st : List Char × Option Nat × List Event) (chunk : List Char) :
    List Char × Option Nat × List Event :=
  let full := st.1 ++ chunk
  let durEvents :=
    match st.2.1 with
    | some d => (some d, st.2.2)
    | none =>
      match try_extract_duration full with
      | some d => (some d, st.2.2 ++ [Event.videoDuration d])
      | none => (none, st.2.2)
  let afterFrame :=
    if ("frame=".data).isPrefixOf chunk then
      match try_extract_frame_time chunk with
      | some time =>
        match durEvents.1 with
        | some d => durEvents.2 ++ [Event.progress (progress_from_durations d time)]
        | none => durEvents.2
      | none => durEvents.2
    else durEvents.2
  (full, durEvents.1, afterFrame)

/-- Events emitted by the stderr thread over a run that reads the given
sequence of non-empty chunks and then sees end-of-stream, without
cancellation. -/
def stderr_thread_run (chunks : List (List Char)) : List Event :=
  (chunks.foldl stderr_step ([], none, [])).2.2

/-- Events emitted by the child-waiter thread (`src/converter.rs` lines
502-541): `Error(ExitCode(code))` for a positive exit code,
`Error(ChildProcess)` when `wait` itself fails, nothing otherwise. -/
def child_thread_run (code : Option Int) (waitOk : Bool) : List Event :=
  if waitOk then
    match code with
    | some c => if 0 < c then [Event.error (ConvError.exitCode c)] else []
    | none => []
  else [Event.error ConvError.childProcess]

/-- The four worker threads spawned by `Converter::convert`. -/
inductive Wk : Type
  | child : Wk
  | stderrW : Wk
  | stdoutW : Wk
  | stdinW : Wk
deriving DecidableEq

/-- State of the orchestration model: the events each worker has yet to
send, which workers have terminated, the workers the main thread still
has to join (in program order), whether `Done` has been sent, and the
event channel contents in send order. -/
structure Sys : Type where
  pending : Wk → List Event
  term : Wk → Bool
  joinQueue : List Wk
  doneSent : Bool
  chan : List Event

/-- Small-step semantics of one conversion job (`Converter::convert`,
`src/converter.rs` lines 101-598): a worker may send its next pending
event; a worker with nothing left to send may terminate; the main
thread joins the head of its join queue once that worker has
terminated; after all four joins the main thread sends `Done` exactly
once (lines 586-595). -/
inductive Step : Sys → Sys → Prop
  | emit (st : Sys) (w : Wk) (e : Event) (rest : List Event) :
      st.pending w = e :: rest →
      Step st { st with pending := Function.update st.pending w rest,
                        chan := st.chan ++ [e] }
  | term (st : Sys) (w : Wk) :
      st.pending w = [] →
      Step st { st with term := Function.update st.term w true }
  | join (st : Sys) (w : Wk) (ws : List Wk) :
      st.joinQueue = w :: ws → st.term w = true →
      Step st { st with joinQueue := ws }
  | sendDone (st : Sys) :
      st.joinQueue = [] → st.doneSent = false →
      Step st { st with doneSent := true, chan := st.chan ++ [Event.done] }

/-- Initial state of a conversion job: all workers running with their
events pending, the join queue in the order of the source
(`handle_child`, `handle_stderr`, `handle_stdout`, `handle_stdin`,
`src/converter.rs` lines 545-584), nothing sent. -/
def initSys (p : Wk → List Event) : Sys :=
  { pending := p
    term := fun _ => false
    joinQueue := [Wk.child, Wk.stderrW, Wk.stdoutW, Wk.stdinW]
    doneSent := false
    chan := [] }

/-- The pending event lists of the four workers of one job, as produced
by the per-thread models. -/
def workerPending (gotCancel observedCancelled : Bool) (buf : List Nat)
    (chunks : List (List Char)) (code : Option Int) (waitOk : Bool) : Wk → List Event
  | .child => child_thread_run code waitOk
  | .stderrW => stderr_thread_run chunks
  | .stdoutW => (stdout_thread_run observedCancelled buf).events
  | .stdinW => stdin_thread_run gotCancel

/-- Value of a string of decimal digits. -/
def valDigits (s : List Char) : Nat :=
  s.foldl (fun a c => a * 10 + digitVal c) 0

/-- A `Settings` value constructible through the public API: the
`with_standard_fps` factory followed by any number of `ffmpeg_path`
setter calls. -/
def applyFfmpegPaths (s : Settings) (paths : List String) : Settings :=
  paths.foldl Settings.set_ffmpeg_path s

/-- Invariant of the orchestration model: no worker ever has `Done`
pending; a terminated worker has nothing pending; a worker no longer in
the join queue has terminated; once `Done` is sent the join queue is
empty; before `Done` is sent the channel has no `Done`; after it the
channel is a `Done`-free prefix followed by a single final `Done`. -/
def SysInv (st : Sys) : Prop :=
  (∀ w, Event.done ∉ st.pending w) ∧
  (∀ w, st.term w = true → st.pending w = []) ∧
  (∀ w, w ∉ st.joinQueue → st.term w = true) ∧
  (st.doneSent = true → st.joinQueue = []) ∧
  (st.doneSent = false → Event.done ∉ st.chan) ∧
  (st.doneSent = true → ∃ pfx, st.chan = pfx ++ [Event.done] ∧ Event.done ∉ pfx)

/-! ### Lemmas about the string primitives -/

theorem splitChar_of_not_mem {sep : Char} {a : List Char} (h : sep ∉ a) :
    splitChar sep a = [a] := by
  induction a with
  | nil => rfl
  | cons c s ih =>
    have hcs : ¬ c = sep := by rintro rfl; exact h (List.mem_cons_self _ _)
    have hs : sep ∉ s := fun hm => h (List.mem_cons_of_mem _ hm)
    simp [splitChar, hcs, ih hs]

theorem splitChar_append {sep : Char} {a : List Char} (b : List Char) (h : sep ∉ a) :
    splitChar sep (a ++ sep :: b) = a :: splitChar sep b := by
  induction a with
  | nil => simp [splitChar]
  | cons c s ih =>
    have hcs : ¬ c = sep := by rintro rfl; exact h (List.mem_cons_self _ _)
    have hs : sep ∉ s := fun hm => h (List.mem_cons_of_mem _ hm)
    have ih' := ih hs
    simp only [List.cons_append, splitChar, hcs, if_false, List.append_eq]
    rw [ih']

theorem containsStr_of_isPrefixOf {pat s : List Char} (h : pat.isPrefixOf s = true) :
    containsStr pat s = true := by
  cases s with
  | nil =>
    cases pat with
    | nil => rfl
    | cons p pt => simp [List.isPrefixOf] at h
  | cons c t => simp [containsStr, h]

theorem containsStr_cons {pat : List Char} (c : Char) {s : List Char}
    (h : containsStr pat s = true) : containsStr pat (c :: s) = true := by
  simp [containsStr, h]

theorem containsStr_append_pat (pat x y : List Char) :
    containsStr pat (x ++ pat ++ y) = true := by
  induction x with
  | nil =>
    simpa using containsStr_of_isPrefixOf
      (List.isPrefixOf_iff_prefix.mpr (List.prefix_append pat y))
  | cons c t ih => exact containsStr_cons c ih

theorem findSplit_eq_none {pat s : List Char} (h : containsStr pat s = false) :
    findSplit pat s = none := by
  induction s with
  | nil =>
    cases pat with
    | nil => simp [containsStr] at h
    | cons p pt => simp [findSplit, List.isPrefixOf]
  | cons c t ih =>
    simp only [containsStr, Bool.or_eq_false_iff] at h
    simp [findSplit, h.1, ih h.2]

theorem findSplit_some {pat : List Char} :
    ∀ {s a b : List Char}, findSplit pat s = some (a, b) → s = a ++ pat ++ b := by
  intro s
  induction s with
  | nil =>
    intro a b h
    by_cases hp : pat.isPrefixOf ([] : List Char) = true
    · have hpat : pat = [] := by
        cases pat with
        | nil => rfl
        | cons p pt => simp [List.isPrefixOf] at hp
      simp [findSplit, hp] at h
      obtain ⟨ha, hb⟩ := h
      subst ha; subst hb; subst hpat
      rfl
    · simp [findSplit, hp] at h
  | cons c t ih =>
    intro a b h
    by_cases hp : pat.isPrefixOf (c :: t) = true
    · simp [findSplit, hp] at h
      have hpre : pat ++ List.drop pat.length (c :: t) = c :: t :=
        List.prefix_iff_eq_append.mp (List.isPrefixOf_iff_prefix.mp hp)
      obtain ⟨ha, hb⟩ := h
      subst ha; subst hb
      simp [hpre]
    · simp only [findSplit, hp, if_false] at h
      cases hf : findSplit pat t with
      | none => rw [hf] at h; simp at h
      | some ab =>
        obtain ⟨a', b'⟩ := ab
        rw [hf] at h
        simp at h
        obtain ⟨ha, hb⟩ := h
        subst ha; subst hb
        simp [ih hf]

theorem findSplit_some_length {pat : List Char} (hne : pat ≠ []) {s a b : List Char}
    (h : findSplit pat s = some (a, b)) : b.length < s.length := by
  have hs := findSplit_some h
  subst hs
  have : pat.length ≠ 0 := fun h0 => hne (List.length_eq_zero.mp h0)
  simp [List.length_append]
  omega

theorem findSplit_append {pat : List Char} (hne : pat ≠ []) {pre : List Char}
    (rest : List Char) (h : containsStr pat (pre ++ pat.dropLast) = false) :
    findSplit pat (pre ++ pat ++ rest) = some (pre, rest) := by
  induction pre with
  | nil =>
    obtain ⟨p, pt, rfl⟩ : ∃ p pt, pat = p :: pt := by
      cases pat with
      | nil => exact absurd rfl hne
      | cons p pt => exact ⟨p, pt, rfl⟩
    have hpre : (p :: pt).isPrefixOf (p :: (pt ++ rest)) = true := by
      have h0 := List.isPrefixOf_iff_prefix.mpr (List.prefix_append (p :: pt) rest)
      simp only [List.cons_append] at h0
      exact h0
    have hdrop : List.drop (p :: pt).length (p :: (pt ++ rest)) = rest := by
      have h0 := List.drop_left (p :: pt) rest
      simp only [List.cons_append] at h0
      exact h0
    show findSplit (p :: pt) (p :: (pt ++ rest)) = some ([], rest)
    simp only [findSplit, hpre, if_true, hdrop]
  | cons c pre' ih =>
    have h2 : containsStr pat (c :: (pre' ++ pat.dropLast)) = false := by
      simpa only [List.cons_append] using h
    have h' : pat.isPrefixOf (c :: (pre' ++ pat.dropLast)) = false ∧
        containsStr pat (pre' ++ pat.dropLast) = false := by
      simpa only [containsStr, Bool.or_eq_false_iff] using h2
    obtain ⟨hp1, hp2⟩ := h'
    obtain ⟨d, hd⟩ : ∃ d : Char, pat.dropLast ++ [d] = pat :=
      ⟨pat.getLast hne, List.dropLast_append_getLast hne⟩
    have hkey : pat.isPrefixOf (c :: (pre' ++ pat ++ rest)) = false := by
      cases hx : pat.isPrefixOf (c :: (pre' ++ pat ++ rest)) with
      | false => rfl
      | true =>
        exfalso
        have heq : c :: (pre' ++ pat ++ rest) =
            ((c :: pre') ++ pat.dropLast) ++ ([d] ++ rest) := by
          simp only [List.append_assoc, List.cons_append, List.nil_append]
          conv_lhs => rw [← hd]
          rw [List.append_assoc]
          simp only [List.singleton_append]
        have hpfx : pat <+: ((c :: pre') ++ pat.dropLast) ++ ([d] ++ rest) := by
          have h0 : pat <+: c :: (pre' ++ pat ++ rest) :=
            List.isPrefixOf_iff_prefix.mp hx
          rwa [heq] at h0
        have hlen : pat.length ≤ ((c :: pre') ++ pat.dropLast).length := by
          have hplen : pat.length ≠ 0 := fun h0 => hne (List.length_eq_zero.mp h0)
          simp only [List.length_append, List.length_cons, List.length_dropLast]
          omega
        have htake : pat = ((c :: pre') ++ pat.dropLast).take pat.length := by
          have ht := List.prefix_iff_eq_take.mp hpfx
          rw [List.take_append_eq_append_take, Nat.sub_eq_zero_of_le hlen] at ht
          simpa using ht
        have hpfx2 : pat.isPrefixOf ((c :: pre') ++ pat.dropLast) = true :=
          List.isPrefixOf_iff_prefix.mpr (List.prefix_iff_eq_take.mpr htake)
        have hx2 : pat.isPrefixOf (c :: (pre' ++ pat.dropLast)) = true := by
          simpa only [List.cons_append] using hpfx2
        rw [hp1] at hx2
        exact Bool.noConfusion hx2
    show findSplit pat (c :: (pre' ++ pat ++ rest)) = some (c :: pre', rest)
    simp only [findSplit, hkey, Bool.false_eq_true, if_false]
    rw [ih hp2]

theorem splitStrGas_congr {pat : List Char} (hne : pat ≠ []) :
    ∀ g1 g2 s, s.length < g1 → s.length < g2 →
      splitStrGas pat g1 s = splitStrGas pat g2 s := by
  intro g1
  induction g1 with
  | zero => intro g2 s h1 _; exact absurd h1 (Nat.not_lt_zero _)
  | succ g ih =>
    intro g2 s h1 h2
    cases g2 with
    | zero => exact absurd h2 (Nat.not_lt_zero _)
    | succ g2' =>
      simp only [splitStrGas]
      cases hf : findSplit pat s with
      | none => rfl
      | some ab =>
        obtain ⟨a, b⟩ := ab
        have hb := findSplit_some_length hne hf
        simp only []
        rw [ih g2' b (by omega) (by omega)]

theorem splitStr_eq {pat : List Char} (hne : pat ≠ []) (s : List Char) :
    splitStr pat s =
      match findSplit pat s with
      | none => [s]
      | some (a, b) => a :: splitStr pat b := by
  show splitStrGas pat (s.length + 1) s = _
  simp only [splitStrGas]
  cases hf : findSplit pat s with
  | none => rfl
  | some ab =>
    obtain ⟨a, b⟩ := ab
    have hb := findSplit_some_length hne hf
    show a :: splitStrGas pat s.length b = a :: splitStrGas pat (b.length + 1) b
    rw [splitStrGas_congr hne s.length (b.length + 1) b (by omega) (by omega)]

theorem splitStr_of_not_contains {pat s : List Char} (hne : pat ≠ [])
    (h : containsStr pat s = false) : splitStr pat s = [s] := by
  rw [splitStr_eq hne, findSplit_eq_none h]

theorem splitStr_append {pat : List Char} (hne : pat ≠ []) {pre : List Char}
    (post : List Char) (h : containsStr pat (pre ++ pat.dropLast) = false) :
    splitStr pat (pre ++ pat ++ post) = pre :: splitStr pat post := by
  rw [splitStr_eq hne, findSplit_append hne post h]

/-! ### Lemmas about `u64` parsing -/

theorem foldl_digit_le (cs : List Char) :
    ∀ acc : Nat, acc ≤ cs.foldl (fun a c => a * 10 + digitVal c) acc := by
  induction cs with
  | nil => intro acc; exact Nat.le_refl _
  | cons c cs ih =>
    intro acc
    calc acc ≤ acc * 10 + digitVal c := by omega
    _ ≤ _ := ih _

theorem parseU64Digits_eq (cs : List Char) :
    ∀ acc : Nat, (∀ c ∈ cs, isDigitChar c = true) →
      cs.foldl (fun a c => a * 10 + digitVal c) acc < U64_MOD →
      parseU64Digits acc cs = some (cs.foldl (fun a c => a * 10 + digitVal c) acc) := by
  induction cs with
  | nil => intro acc _ _; rfl
  | cons c cs ih =>
    intro acc hd hlt
    have hc : isDigitChar c = true := hd c (List.mem_cons_self _ _)
    have hrest : ∀ x ∈ cs, isDigitChar x = true := fun x hx => hd x (List.mem_cons_of_mem _ hx)
    simp only [List.foldl_cons] at hlt
    have hacc : acc * 10 + digitVal c < U64_MOD :=
      Nat.lt_of_le_of_lt (foldl_digit_le cs _) hlt
    simp only [parseU64Digits, hc, if_true, hacc, List.foldl_cons]
    exact ih _ hrest hlt

theorem isDigitChar_ne_plus {c : Char} (h : isDigitChar c = true) : ¬ c = '+' := by
  rintro rfl; exact absurd h (by decide)

theorem isDigitChar_ne_dot {c : Char} (h : isDigitChar c = true) : ¬ c = '.' := by
  rintro rfl; exact absurd h (by decide)

theorem isDigitChar_ne_colon {c : Char} (h : isDigitChar c = true) : ¬ c = ':' := by
  rintro rfl; exact absurd h (by decide)

theorem parseU64_all_digits {s : List Char} (hne : s ≠ [])
    (hd : ∀ c ∈ s, isDigitChar c = true) (hlt : valDigits s < U64_MOD) :
    parseU64 s = some (valDigits s) := by
  cases s with
  | nil => exact absurd rfl hne
  | cons c cs =>
    have hc : ¬ c = '+' := isDigitChar_ne_plus (hd c (List.mem_cons_self _ _))
    simp only [parseU64, hc, if_false]
    exact parseU64Digits_eq _ 0 hd hlt

theorem not_mem_digits {x : Char} (hx : isDigitChar x = false) {l : List Char}
    (hd : ∀ c ∈ l, isDigitChar c = true) : x ∉ l := by
  intro hm
  rw [hd x hm] at hx
  exact Bool.noConfusion hx

theorem getLastBang_singleton (x : List Char) :
    ([x] : List (List Char)).getLast! = x := rfl

theorem getLastBang_pair (x y : List Char) :
    ([x, y] : List (List Char)).getLast! = y := rfl

/-! ### Supporting lemmas for the progress model and the settings -/

theorem progress_pos {total : Nat} (ht : 0 < total) (p : Nat) :
    progress_from_durations total p = F64.val (min ((p : ℚ) / (total : ℚ)) 1) := by
  have htq : (total : ℚ) ≠ 0 := Nat.cast_ne_zero.mpr ht.ne'
  simp [progress_from_durations, f64Div, f64Min, htq]

theorem applyFfmpegPaths_gif_fps (paths : List String) :
    ∀ s : Settings, (applyFfmpegPaths s paths).gif_fps = s.gif_fps := by
  induction paths with
  | nil => intro s; rfl
  | cons p ps ih => intro s; exact ih _

theorem applyFfmpegPaths_gif_width (paths : List String) :
    ∀ s : Settings, (applyFfmpegPaths s paths).gif_width = s.gif_width := by
  induction paths with
  | nil => intro s; rfl
  | cons p ps ih => intro s; exact ih _

/-! ### Unfolding helpers for the timestamp decoder -/

theorem dur_none_of_dot_arity {s : List Char}
    (h : (splitChar '.' s).length ≠ 2) : duration_from_ffmpeg_time_string s = none := by
  rcases hsp : splitChar '.' s with _ | ⟨x, _ | ⟨y, _ | ⟨z, t⟩⟩⟩
  · simp only [duration_from_ffmpeg_time_string, hsp]
  · simp only [duration_from_ffmpeg_time_string, hsp]
  · exact absurd (by rw [hsp]; rfl) h
  · simp only [duration_from_ffmpeg_time_string, hsp]

theorem dur_none_of_colon_arity {s i f : List Char}
    (hif : splitChar '.' s = [i, f]) (h : (splitChar ':' i).length ≠ 3) :
    duration_from_ffmpeg_time_string s = none := by
  rcases hci : splitChar ':' i with _ | ⟨x, _ | ⟨y, _ | ⟨z, _ | ⟨u, t⟩⟩⟩⟩
  · simp only [duration_from_ffmpeg_time_string, hif, hci]
  · simp only [duration_from_ffmpeg_time_string, hif, hci]
  · simp only [duration_from_ffmpeg_time_string, hif, hci]
  · exact absurd (by rw [hci]; rfl) h
  · simp only [duration_from_ffmpeg_time_string, hif, hci]

theorem dur_with_parts {s i f hStr mStr sStr : List Char}
    (hif : splitChar '.' s = [i, f]) (hci : splitChar ':' i = [hStr, mStr, sStr]) :
    duration_from_ffmpeg_time_string s =
      (match parseU64 f with
      | none => none
      | some milliseconds =>
        if milliseconds ≥ 1000 then none
        else
          match parseU64 sStr with
          | none => none
          | some seconds =>
            if seconds ≥ 60 then none
            else
              match parseU64 mStr with
              | none => none
              | some minutes =>
                if minutes ≥ 60 then none
                else
                  match parseU64 hStr with
                  | none => none
                  | some hours =>
                    some ((milliseconds + seconds * 1000 + minutes * 60 * 1000 +
                      hours * 60 * 60 * 1000) % U64_MOD)) := by
  simp only [duration_from_ffmpeg_time_string, hif, hci]

/-! ### Lemmas for the orchestration model -/

theorem step_preserves {st st' : Sys} (hinv : SysInv st) (hstep : Step st st') :
    SysInv st' := by
  obtain ⟨i1, i2, i3, i4, i5, i6⟩ := hinv
  cases hstep with
  | emit w e rest hpend =>
    refine ⟨?_, ?_, i3, i4, ?_, ?_⟩
    · intro w'
      show Event.done ∉ Function.update st.pending w rest w'
      rcases eq_or_ne w' w with hw | hw
      · subst hw
        rw [Function.update_same]
        intro hm
        exact i1 w' (by rw [hpend]; exact List.mem_cons_of_mem _ hm)
      · rw [Function.update_noteq hw]
        exact i1 w'
    · intro w' ht'
      show Function.update st.pending w rest w' = []
      rcases eq_or_ne w' w with hw | hw
      · subst hw
        have hp := i2 w' ht'
        rw [hpend] at hp
        exact List.noConfusion hp
      · rw [Function.update_noteq hw]
        exact i2 w' ht'
    · intro hds
      have he : Event.done ∉ e :: rest := by rw [← hpend]; exact i1 w
      show Event.done ∉ st.chan ++ [e]
      simp only [List.mem_append, List.mem_singleton, not_or]
      refine ⟨i5 hds, fun h => he ?_⟩
      rw [h]
      exact List.mem_cons_self e rest
    · intro hds
      have hterm : st.term w = true := i3 w (by rw [i4 hds]; exact List.not_mem_nil w)
      have hp := i2 w hterm
      rw [hpend] at hp
      exact List.noConfusion hp
  | term w hpend =>
    refine ⟨i1, ?_, ?_, i4, i5, i6⟩
    · intro w' ht'
      show st.pending w' = []
      replace ht' : Function.update st.term w true w' = true := ht'
      rcases eq_or_ne w' w with hw | hw
      · subst hw; exact hpend
      · rw [Function.update_noteq hw] at ht'
        exact i2 w' ht'
    · intro w' hnm
      show Function.update st.term w true w' = true
      rcases eq_or_ne w' w with hw | hw
      · subst hw; rw [Function.update_same]
      · rw [Function.update_noteq hw]
        exact i3 w' hnm
  | join w ws hq ht =>
    refine ⟨i1, i2, ?_, ?_, i5, i6⟩
    · intro w' hnm
      rcases eq_or_ne w' w with hw | hw
      · subst hw; exact ht
      · refine i3 w' ?_
        rw [hq]
        simp only [List.mem_cons, not_or]
        exact ⟨hw, hnm⟩
    · intro hds
      have h0 := i4 hds
      rw [hq] at h0
      exact List.noConfusion h0
  | sendDone hq hds =>
    refine ⟨i1, i2, i3, fun _ => hq, ?_, ?_⟩
    · intro h
      exact Bool.noConfusion h
    · intro _
      exact ⟨st.chan, rfl, i5 hds⟩

theorem reachable_inv {st0 st : Sys} (h0 : SysInv st0)
    (h : Relation.ReflTransGen Step st0 st) : SysInv st := by
  induction h with
  | refl => exact h0
  | tail _ hstep ih => exact step_preserves ih hstep

theorem init_inv {p : Wk → List Event} (hp : ∀ w, Event.done ∉ p w) :
    SysInv (initSys p) := by
  refine ⟨hp, ?_, ?_, ?_, ?_, ?_⟩
  · intro w h; exact Bool.noConfusion h
  · intro w hnm
    exfalso
    apply hnm
    cases w <;> simp [initSys]
  · intro h; exact Bool.noConfusion h
  · intro _; exact List.not_mem_nil _
  · intro h; exact Bool.noConfusion h

theorem stdin_done_free (g : Bool) : Event.done ∉ stdin_thread_run g := by
  cases g <;> simp [stdin_thread_run]

theorem stdout_done_free (c : Bool) (buf : List Nat) :
    Event.done ∉ (stdout_thread_run c buf).events := by
  cases c <;> cases buf <;> simp [stdout_thread_run]

theorem child_done_free (code : Option Int) (ok : Bool) :
    Event.done ∉ child_thread_run code ok := by
  cases ok with
  | false => simp [child_thread_run]
  | true =>
    cases code with
    | none => simp [child_thread_run]
    | some c =>
      by_cases hc : 0 < c <;> simp [child_thread_run, hc]

theorem stderr_step_done_free (st : List Char × Option Nat × List Event)
    (chunk : List Char) (h : Event.done ∉ st.2.2) :
    Event.done ∉ (stderr_step st chunk).2.2 := by
  obtain ⟨full, dur, evs⟩ := st
  dsimp only [stderr_step]
  repeat' split
  all_goals simp_all [List.mem_append]

theorem stderr_foldl_done_free (chunks : List (List Char)) :
    ∀ st, Event.done ∉ st.2.2 → Event.done ∉ (chunks.foldl stderr_step st).2.2 := by
  induction chunks with
  | nil => intro st h; exact h
  | cons c cs ih => intro st h; exact ih _ (stderr_step_done_free st c h)

theorem stderr_done_free (chunks : List (List Char)) :
    Event.done ∉ stderr_thread_run chunks :=
  stderr_foldl_done_free chunks ([], none, []) (by simp)

theorem workerPending_done_free (g c : Bool) (buf : List Nat)
    (chunks : List (List Char)) (code : Option Int) (ok : Bool) :
    ∀ w, Event.done ∉ workerPending g c buf chunks code ok w := by
  intro w
  cases w with
  | child => exact child_done_free code ok
  | stderrW => exact stderr_done_free chunks
  | stdoutW => exact stdout_done_free c buf
  | stdinW => exact stdin_done_free g

/-! ### Claims -/

/-- C1 counterexample: on a transcript containing the spec's line
`  Duration: 00:00:05.06, start: 0.000000,`, `try_extract_duration`
returns 5006 ms, not the claimed 5060 ms (the code takes the fraction
`06` as 6 whole milliseconds, not as centiseconds); the frame token
`time=00:00:04.91` decodes to 4091 ms, and the progress emitted for a
total of 5060 ms is `4091/5060`, not the claimed `4910/5060`. -/
theorem c1_counterexample :
    try_extract_duration
      ("Input #0, mov\n  Duration: 00:00:05.06, start: 0.000000, bitrate: 1785 kb/s\n".data) =
      some 5006 ∧
    try_extract_duration
      ("Input #0, mov\n  Duration: 00:00:05.06, start: 0.000000, bitrate: 1785 kb/s\n".data) ≠
      some 5060 ∧
    try_extract_frame_time
      ("frame=   50 fps=3.9 q=-0.0 Lsize=   23430kB time=00:00:04.91 bitrate=39091.3kbits/s speed=0.379x    ".data) =
      some 4091 ∧
    progress_from_durations 5060 4091 = F64.val (4091 / 5060) ∧
    (4091 / 5060 : ℚ) ≠ 4910 / 5060 := by
  refine ⟨by decide, by decide, by decide, ?_, by norm_num⟩
  have h : ((5060 : Nat) : ℚ) ≠ 0 := by norm_num
  simp only [progress_from_durations, f64Div, h, if_false, f64Min]
  norm_num [min_eq_left, div_le_one]

/-- C1 (amended): for the same transcript the extracted duration is
5006 ms; the frame token `time=00:00:04.91` decodes to 4091 ms; with
the extracted total of 5006 ms the emitted progress value is
`4091/5006` (≈ 0.8172), which is at most 1. -/
theorem c1_theorem :
    try_extract_duration
      ("Input #0, mov\n  Duration: 00:00:05.06, start: 0.000000, bitrate: 1785 kb/s\n".data) =
      some 5006 ∧
    try_extract_frame_time
      ("frame=   50 fps=3.9 q=-0.0 Lsize=   23430kB time=00:00:04.91 bitrate=39091.3kbits/s speed=0.379x    ".data) =
      some 4091 ∧
    progress_from_durations 5006 4091 = F64.val (4091 / 5006) ∧
    (4091 / 5006 : ℚ) ≤ 1 := by
  refine ⟨by decide, by decide, ?_, by norm_num⟩
  have h : ((5006 : Nat) : ℚ) ≠ 0 := by norm_num
  simp only [progress_from_durations, f64Div, h, if_false, f64Min]
  norm_num [min_eq_left, div_le_one]

/-- C3 counterexample: the claim says a fraction with other than 2-3
digits is a deviation that yields `None`, but the code never checks the
digit count: the one-digit fraction in `00:00:04.9` is accepted and
parsed as 9 milliseconds, giving `Some 4009`. -/
theorem c3_counterexample :
    duration_from_ffmpeg_time_string ("00:00:04.9".data) = some 4009 ∧
    duration_from_ffmpeg_time_string ("00:00:04.9".data) ≠ none := by
  exact ⟨by decide, by decide⟩

/-- C3 (amended): `duration_from_ffmpeg_time_string` is total — it
always returns `Some` or `None` — and each deviation of the claim
except the digit-count one forces `None`: wrong `.` arity, wrong `:`
arity, an unparseable (non-numeric, negative, signed-overflowing)
fraction / seconds / minutes / hours component, a fraction value
`≥ 1000`, and seconds or minutes `≥ 60`.  The number of digits of the
fraction is not checked (see the counterexample). -/
theorem c3_theorem (s : List Char) :
    (duration_from_ffmpeg_time_string s = none ∨
      ∃ d : Nat, duration_from_ffmpeg_time_string s = some d) ∧
    ((splitChar '.' s).length ≠ 2 → duration_from_ffmpeg_time_string s = none) ∧
    (∀ i f, splitChar '.' s = [i, f] →
      ((splitChar ':' i).length ≠ 3 → duration_from_ffmpeg_time_string s = none) ∧
      (parseU64 f = none → duration_from_ffmpeg_time_string s = none) ∧
      (∀ v, parseU64 f = some v → 1000 ≤ v → duration_from_ffmpeg_time_string s = none) ∧
      (∀ hStr mStr sStr, splitChar ':' i = [hStr, mStr, sStr] →
        (parseU64 sStr = none → duration_from_ffmpeg_time_string s = none) ∧
        (∀ v, parseU64 sStr = some v → 60 ≤ v → duration_from_ffmpeg_time_string s = none) ∧
        (parseU64 mStr = none → duration_from_ffmpeg_time_string s = none) ∧
        (∀ v, parseU64 mStr = some v → 60 ≤ v → duration_from_ffmpeg_time_string s = none) ∧
        (parseU64 hStr = none → duration_from_ffmpeg_time_string s = none))) := by
  refine ⟨?_, dur_none_of_dot_arity, ?_⟩
  · cases h : duration_from_ffmpeg_time_string s with
    | none => exact Or.inl rfl
    | some d => exact Or.inr ⟨d, rfl⟩
  · intro i f hif
    refine ⟨dur_none_of_colon_arity hif, ?_, ?_, ?_⟩
    · intro hpf
      rcases hci : splitChar ':' i with _ | ⟨x, _ | ⟨y, _ | ⟨z, _ | ⟨u, t⟩⟩⟩⟩ <;>
        first
        | exact dur_none_of_colon_arity hif
            (by rw [hci]; simp only [List.length_cons, List.length_nil]; omega)
        | rw [dur_with_parts hif hci, hpf]
    · intro v hpf hv
      rcases hci : splitChar ':' i with _ | ⟨x, _ | ⟨y, _ | ⟨z, _ | ⟨u, t⟩⟩⟩⟩ <;>
        first
        | exact dur_none_of_colon_arity hif
            (by rw [hci]; simp only [List.length_cons, List.length_nil]; omega)
        | (rw [dur_with_parts hif hci, hpf]; simp only [ge_iff_le, hv, if_true])
    · intro hStr mStr sStr hci
      have hbody := dur_with_parts hif hci
      refine ⟨?_, ?_, ?_, ?_, ?_⟩
      · intro hps
        rw [hbody]
        cases parseU64 f with
        | none => rfl
        | some msv =>
          by_cases hm : msv ≥ 1000
          · simp only [hm, if_true]
          · simp only [hm, if_false, hps]
      · intro v hps hv
        rw [hbody]
        cases parseU64 f with
        | none => rfl
        | some msv =>
          by_cases hm : msv ≥ 1000
          · simp only [hm, if_true]
          · simp only [hm, if_false, hps, ge_iff_le, hv, if_true]
      · intro hpm
        rw [hbody]
        cases parseU64 f with
        | none => rfl
        | some msv =>
          by_cases hm : msv ≥ 1000
          · simp only [hm, if_true]
          · simp only [hm, if_false]
            cases parseU64 sStr with
            | none => rfl
            | some sv =>
              by_cases hsv : sv ≥ 60
              · simp only [hsv, if_true]
              · simp only [hsv, if_false, hpm]
      · intro v hpm hv
        rw [hbody]
        cases parseU64 f with
        | none => rfl
        | some msv =>
          by_cases hm : msv ≥ 1000
          · simp only [hm, if_true]
          · simp only [hm, if_false]
            cases parseU64 sStr with
            | none => rfl
            | some sv =>
              by_cases hsv : sv ≥ 60
              · simp only [hsv, if_true]
              · simp only [hsv, if_false, hpm, ge_iff_le, hv, if_true]
      · intro hph
        rw [hbody]
        cases parseU64 f with
        | none => rfl
        | some msv =>
          by_cases hm : msv ≥ 1000
          · simp only [hm, if_true]
          · simp only [hm, if_false]
            cases parseU64 sStr with
            | none => rfl
            | some sv =>
              by_cases hsv : sv ≥ 60
              · simp only [hsv, if_true]
              · simp only [hsv, if_false]
                cases parseU64 mStr with
                | none => rfl
                | some mv =>
                  by_cases hmv : mv ≥ 60
                  · simp only [hmv, if_true]
                  · simp only [hmv, if_false, hph]

/-- C3 witness: the deviation branches of the amended claim fire on
concrete malformed inputs (wrong arity, out-of-range seconds,
out-of-range fraction, negative hours). -/
theorem c3_witness :
    duration_from_ffmpeg_time_string ("no-dots-here".data) = none ∧
    duration_from_ffmpeg_time_string ("00:00:70.00".data) = none ∧
    duration_from_ffmpeg_time_string ("0:0:0.1000".data) = none ∧
    duration_from_ffmpeg_time_string ("-1:00:00.00".data) = none := by
  refine ⟨?_, ?_, ?_, ?_⟩
  · exact (c3_theorem _).2.1 (by decide)
  · exact (((c3_theorem _).2.2 ("00:00:70".data) ("00".data) (by decide)).2.2.2
      ("00".data) ("00".data) ("70".data) (by decide)).2.1 70 (by decide) (by decide)
  · exact ((c3_theorem _).2.2 ("0:0:0".data) ("1000".data) (by decide)).2.2.1 1000
      (by decide) (by decide)
  · exact (((c3_theorem _).2.2 ("-1:00:00".data) ("00".data) (by decide)).2.2.2
      ("-1".data) ("00".data) ("00".data) (by decide)).2.2.2.2 (by decide)

/-- C6: for a fixed positive total duration, `progress_from_durations`
is monotonically non-decreasing in the elapsed duration, never exceeds
1.0, and returns exactly 1.0 whenever the elapsed duration is at least
the total. -/
theorem c6_theorem (total p1 p2 q : Nat) (ht : 0 < total) (h12 : p1 ≤ p2) :
    F64.le (progress_from_durations total p1) (progress_from_durations total p2) ∧
    F64.le (progress_from_durations total q) (F64.val 1) ∧
    (total ≤ q → progress_from_durations total q = F64.val 1) := by
  have htq : (0 : ℚ) < (total : ℚ) := by exact_mod_cast ht
  refine ⟨?_, ?_, ?_⟩
  · rw [progress_pos ht p1, progress_pos ht p2]
    show min ((p1 : ℚ) / (total : ℚ)) 1 ≤ min ((p2 : ℚ) / (total : ℚ)) 1
    refine min_le_min ?_ le_rfl
    exact (div_le_div_iff_of_pos_right htq).mpr (by exact_mod_cast h12)
  · rw [progress_pos ht q]
    show min ((q : ℚ) / (total : ℚ)) 1 ≤ (1 : ℚ)
    exact min_le_right _ _
  · intro hq
    rw [progress_pos ht q]
    have h1 : (1 : ℚ) ≤ (q : ℚ) / (total : ℚ) :=
      (one_le_div htq).mpr (by exact_mod_cast hq)
    rw [min_eq_right h1]

/-- C6 witness: the three parts at total 2 ms, elapsed 1 ≤ 3 and
elapsed 5 ≥ 2. -/
theorem c6_witness :
    F64.le (progress_from_durations 2 1) (progress_from_durations 2 3) ∧
    F64.le (progress_from_durations 2 5) (F64.val 1) ∧
    (2 ≤ 5 → progress_from_durations 2 5 = F64.val 1) :=
  c6_theorem 2 1 3 5 (by decide) (by decide)

/-- C7: in every completed run of the stdout worker, a true cancelled
flag yields no event; otherwise an empty buffer yields
`Error(EmptyStdout)` and a non-empty buffer yields `Success` with the
buffered bytes; and in every case the shared `ended` flag is set to
true as the worker's final action. -/
theorem c7_theorem (buf tl : List Nat) (b : Nat) :
    (stdout_thread_run true buf).events = [] ∧
    (stdout_thread_run false []).events = [Event.error ConvError.emptyStdout] ∧
    (stdout_thread_run false (b :: tl)).events = [Event.success (b :: tl)] ∧
    (∀ (c : Bool) (buf2 : List Nat), (stdout_thread_run c buf2).ended = true) :=
  ⟨rfl, rfl, rfl, fun _ _ => rfl⟩

/-- C9 counterexample: the public API accepts a zero width —
`with_standard_fps(path, 0)` builds a `Settings` whose width is 0, so
the claimed positivity invariant for the width does not hold. -/
theorem c9_counterexample :
    ¬ 0 < (Settings.with_standard_fps "video.mp4" 0).gif_width := by
  decide

/-- C9 (amended): for every `Settings` built through the public API
(`with_standard_fps` followed by any number of `ffmpeg_path` calls) the
frame rate is the constant 10 and hence positive; the width is exactly
the caller-supplied width (no validation is performed, so it is
positive exactly when the supplied width is); and the derived
`filter_complex` string is a pure function of the frame rate and width
fields. -/
theorem c9_theorem (vp : String) (w : Nat) (paths : List String) :
    (applyFfmpegPaths (Settings.with_standard_fps vp w) paths).gif_fps = 10 ∧
    0 < (applyFfmpegPaths (Settings.with_standard_fps vp w) paths).gif_fps ∧
    (applyFfmpegPaths (Settings.with_standard_fps vp w) paths).gif_width = w ∧
    (0 < w → 0 < (applyFfmpegPaths (Settings.with_standard_fps vp w) paths).gif_width) ∧
    (∀ s1 s2 : Settings, s1.gif_fps = s2.gif_fps → s1.gif_width = s2.gif_width →
      s1.generate_filter_complex = s2.generate_filter_complex) := by
  have hfps := applyFfmpegPaths_gif_fps paths (Settings.with_standard_fps vp w)
  have hwidth := applyFfmpegPaths_gif_width paths (Settings.with_standard_fps vp w)
  refine ⟨hfps, ?_, hwidth, ?_, ?_⟩
  · rw [hfps]; exact Nat.succ_pos 9
  · intro hw; rw [hwidth]; exact hw
  · intro s1 s2 h1 h2
    simp [Settings.generate_filter_complex, h1, h2]

/-- C9 witness: the amended claim at a concrete settings chain, with
the purity part applied to two settings that differ only in paths. -/
theorem c9_witness :
    (applyFfmpegPaths (Settings.with_standard_fps "v.mp4" 3) ["/usr/bin/ffmpeg"]).gif_fps = 10 ∧
    (applyFfmpegPaths (Settings.with_standard_fps "v.mp4" 3) ["/usr/bin/ffmpeg"]).gif_width = 3 ∧
    (Settings.with_standard_fps "a.mp4" 3).generate_filter_complex =
      ((Settings.with_standard_fps "b.mp4" 3).set_ffmpeg_path "x").generate_filter_complex := by
  obtain ⟨h1, _, h3, _, h5⟩ := c9_theorem "v.mp4" 3 ["/usr/bin/ffmpeg"]
  exact ⟨h1, h3, h5 _ _ rfl rfl⟩

/-- C10: with a total duration of zero the division step yields NaN
(for a zero elapsed duration) or positive infinity (for a non-zero
one), the final `min` with 1.0 maps both to exactly 1.0, and for every
input pair the returned progress is a finite value of at most 1.0. -/
theorem c10_theorem :
    (∀ p : Nat, progress_from_durations 0 p = F64.val 1) ∧
    f64Div ((0 : Nat) : ℚ) ((0 : Nat) : ℚ) = F64.nan ∧
    (∀ p : Nat, f64Div (((p + 1 : Nat) : ℚ)) ((0 : Nat) : ℚ) = F64.posInf) ∧
    (∀ total p : Nat, ∃ q : ℚ, progress_from_durations total p = F64.val q ∧ q ≤ 1) := by
  refine ⟨?_, ?_, ?_, ?_⟩
  · intro p
    cases p with
    | zero => simp [progress_from_durations, f64Div, f64Min]
    | succ n =>
      have hn : ((n : ℚ) + 1) ≠ 0 := by positivity
      simp [progress_from_durations, f64Div, f64Min, hn]
  · simp [f64Div]
  · intro p
    have hn : ((p : ℚ) + 1) ≠ 0 := by positivity
    simp [f64Div, hn]
  · intro total p
    cases total with
    | zero =>
      refine ⟨1, ?_, le_refl 1⟩
      cases p with
      | zero => simp [progress_from_durations, f64Div, f64Min]
      | succ n =>
        have hn : ((n : ℚ) + 1) ≠ 0 := by positivity
        simp [progress_from_durations, f64Div, f64Min, hn]
    | succ t =>
      refine ⟨min ((p : ℚ) / ((t + 1 : Nat) : ℚ)) 1, ?_, min_le_right _ _⟩
      exact progress_pos (Nat.succ_pos t) p

/-- C2 counterexample: the claim quantifies over arbitrary non-negative
hours, but the code parses hours as a `u64`, so the well-formed
timestamp with hours `2^64` (a 20-digit number, minutes and seconds 0,
two-digit fraction) is rejected with `None` instead of returning the
exact millisecond total. -/
theorem c2_counterexample :
    duration_from_ffmpeg_time_string ("18446744073709551616:00:00.00".data) = none ∧
    duration_from_ffmpeg_time_string ("18446744073709551616:00:00.00".data) ≠
      some (18446744073709551616 * 60 * 60 * 1000) := by
  exact ⟨by decide, by decide⟩

/-- C2 (amended): for every well-formed `HH:MM:SS.cc` string — digit
strings for hours, minutes, seconds, fraction, with a 2-3 digit
fraction below 999 and minutes and seconds below 60 — whose exact
millisecond total fits in a `u64`, the decoder returns exactly
`hours*3600000 + minutes*60000 + seconds*1000 + cc` milliseconds. -/
theorem c2_theorem (hs ms ss cs : List Char)
    (hhne : hs ≠ []) (hhd : ∀ c ∈ hs, isDigitChar c = true)
    (hmne : ms ≠ []) (hmd : ∀ c ∈ ms, isDigitChar c = true)
    (hsne : ss ≠ []) (hsd : ∀ c ∈ ss, isDigitChar c = true)
    (hcd : ∀ c ∈ cs, isDigitChar c = true)
    (hclen : cs.length = 2 ∨ cs.length = 3)
    (hm60 : valDigits ms < 60) (hs60 : valDigits ss < 60) (hc999 : valDigits cs < 999)
    (htot : valDigits hs * 3600000 + valDigits ms * 60000 + valDigits ss * 1000 +
      valDigits cs < U64_MOD) :
    duration_from_ffmpeg_time_string (hs ++ ':' :: (ms ++ ':' :: ss) ++ '.' :: cs) =
      some (valDigits hs * 3600000 + valDigits ms * 60000 + valDigits ss * 1000 +
        valDigits cs) := by
  have hcne : cs ≠ [] := by
    intro h; subst h; rcases hclen with h | h <;> simp at h
  have hdot_hs : '.' ∉ hs := not_mem_digits (by decide) hhd
  have hdot_ms : '.' ∉ ms := not_mem_digits (by decide) hmd
  have hdot_ss : '.' ∉ ss := not_mem_digits (by decide) hsd
  have hdot_cs : '.' ∉ cs := not_mem_digits (by decide) hcd
  have hcol_hs : ':' ∉ hs := not_mem_digits (by decide) hhd
  have hcol_ms : ':' ∉ ms := not_mem_digits (by decide) hmd
  have hcol_ss : ':' ∉ ss := not_mem_digits (by decide) hsd
  have hdotA : '.' ∉ hs ++ ':' :: (ms ++ ':' :: ss) := by
    simp only [List.mem_append, List.mem_cons, not_or]
    exact ⟨hdot_hs, by decide, hdot_ms, by decide, hdot_ss⟩
  have hif : splitChar '.' (hs ++ ':' :: (ms ++ ':' :: ss) ++ '.' :: cs) =
      [hs ++ ':' :: (ms ++ ':' :: ss), cs] := by
    rw [splitChar_append cs hdotA, splitChar_of_not_mem hdot_cs]
  have hci : splitChar ':' (hs ++ ':' :: (ms ++ ':' :: ss)) = [hs, ms, ss] := by
    rw [splitChar_append _ hcol_hs, splitChar_append _ hcol_ms,
      splitChar_of_not_mem hcol_ss]
  have hU999 : (999 : Nat) < U64_MOD := by norm_num [U64_MOD]
  have hU60 : (60 : Nat) < U64_MOD := by norm_num [U64_MOD]
  have hpc : parseU64 cs = some (valDigits cs) :=
    parseU64_all_digits hcne hcd (lt_trans hc999 hU999)
  have hps : parseU64 ss = some (valDigits ss) :=
    parseU64_all_digits hsne hsd (lt_trans hs60 hU60)
  have hpm : parseU64 ms = some (valDigits ms) :=
    parseU64_all_digits hmne hmd (lt_trans hm60 hU60)
  have hhlt : valDigits hs < U64_MOD := by
    have h1 : valDigits hs ≤ valDigits hs * 3600000 :=
      Nat.le_mul_of_pos_right _ (by norm_num)
    omega
  have hph : parseU64 hs = some (valDigits hs) := parseU64_all_digits hhne hhd hhlt
  rw [dur_with_parts hif hci]
  simp only [hpc, hps, hpm, hph]
  rw [if_neg (show ¬ valDigits cs ≥ 1000 by omega),
    if_neg (show ¬ valDigits ss ≥ 60 by omega),
    if_neg (show ¬ valDigits ms ≥ 60 by omega)]
  have hlt : valDigits cs + valDigits ss * 1000 + valDigits ms * 60 * 1000 +
      valDigits hs * 60 * 60 * 1000 < U64_MOD := by omega
  rw [Nat.mod_eq_of_lt hlt]
  congr 1
  omega

/-- C2 witness: the amended claim at `00:00:04.91` (2-digit fraction),
giving 4091 ms. -/
theorem c2_witness :
    duration_from_ffmpeg_time_string ("00:00:04.91".data) = some 4091 := by
  have hstr : "00:00:04.91".data =
      "00".data ++ ':' :: ("00".data ++ ':' :: "04".data) ++ '.' :: "91".data := by decide
  rw [hstr, c2_theorem ("00".data) ("00".data) ("04".data) ("91".data) (by decide)
    (by decide) (by decide) (by decide) (by decide) (by decide) (by decide) (by decide)
    (by decide) (by decide) (by decide) (by decide)]
  decide

/-- C4 counterexample: a text with no `frame=` record at all still
yields a decoded `time=` token — the split pattern is `"\nframe="`, and
when it is absent the whole text is searched — refuting the claim that
absence of a `frame=` record forces `None`. -/
theorem c4_counterexample :
    try_extract_frame_time ("time=00:00:01.00".data) = some 1000 ∧
    containsStr ("frame=".data) ("time=00:00:01.00".data) = false := by
  exact ⟨by decide, by decide⟩

/-- C4 (amended): `try_extract_frame_time` splits the text on
`"\nframe="` and decodes the first `time=` token of the last piece:
when the pattern does not occur, the piece is the entire text (so a
`time=` token is decoded even with no `frame=` record); when the text
is `pre ++ "\nframe=" ++ post` with no occurrence in `post` and none
straddling the boundary, the piece is exactly `post`. -/
theorem c4_theorem (s pre post : List Char)
    (h0 : containsStr FRAME_PAT s = false)
    (h1 : containsStr FRAME_PAT (pre ++ FRAME_PAT.dropLast) = false)
    (h2 : containsStr FRAME_PAT post = false) :
    try_extract_frame_time s = extract_time_token s ∧
    try_extract_frame_time (pre ++ FRAME_PAT ++ post) = extract_time_token post := by
  have hne : FRAME_PAT ≠ [] := by decide
  constructor
  · simp [try_extract_frame_time, splitStr_of_not_contains hne h0, getLastBang_singleton]
  · have hsp := splitStr_append hne post h1
    rw [splitStr_of_not_contains hne h2] at hsp
    rw [List.append_assoc] at hsp
    simp [try_extract_frame_time, hsp, getLastBang_pair]

/-- C4 witness: the second part of the amended claim on a concrete
transcript whose last `"\nframe="` record carries `time=00:00:02.50`. -/
theorem c4_witness :
    try_extract_frame_time
      ("transcode log".data ++ FRAME_PAT ++ "   50 fps=3.9 time=00:00:02.50 bitrate=1k".data) =
      some 2050 := by
  rw [(c4_theorem [] ("transcode log".data)
    ("   50 fps=3.9 time=00:00:02.50 bitrate=1k".data) (by decide) (by decide) (by decide)).2]
  decide

/-- C5 counterexample: a text that does contain a well-formed
`  Duration: 00:00:05.06, start: ...` line nevertheless yields `None`,
because `", start: "` already occurs before the `"\n  Duration: "`
marker and the first `splitn` component is then decoded (and fails)
with an early return. -/
theorem c5_counterexample :
    try_extract_duration ("x, start: y\n  Duration: 00:00:05.06, start: 0.000000,\n".data) =
      none ∧
    duration_from_ffmpeg_time_string ("00:00:05.06".data) = some 5006 := by
  exact ⟨by decide, by decide⟩

/-- C5 (amended): `try_extract_duration` inspects only the first
occurrence of `"\n  Duration: "`: when the text before that marker does
not contain `", start: "` (and no marker occurrence straddles the
boundary), and the timestamp segment is followed by `", start: "`, the
result is exactly the decode of the segment between the marker and the
first following `", start: "`. -/
theorem c5_theorem (pre ts rest : List Char)
    (h1 : containsStr DUR_P1 (pre ++ DUR_P1.dropLast) = false)
    (h2 : containsStr DUR_P2 pre = false)
    (h3 : containsStr DUR_P2 (ts ++ DUR_P2.dropLast) = false) :
    try_extract_duration (pre ++ DUR_P1 ++ (ts ++ DUR_P2 ++ rest)) =
      duration_from_ffmpeg_time_string ts := by
  have hne1 : DUR_P1 ≠ [] := by decide
  have hne2 : DUR_P2 ≠ [] := by decide
  have hfs1 : findSplit DUR_P1 (pre ++ DUR_P1 ++ (ts ++ DUR_P2 ++ rest)) =
      some (pre, ts ++ DUR_P2 ++ rest) := findSplit_append hne1 _ h1
  have hfs2 : findSplit DUR_P2 (ts ++ DUR_P2 ++ rest) = some (ts, rest) :=
    findSplit_append hne2 _ h3
  have hcon : containsStr DUR_P2 (ts ++ DUR_P2 ++ rest) = true :=
    containsStr_append_pat _ _ _
  have hfs1' : findSplit DUR_P1 (pre ++ (DUR_P1 ++ (ts ++ (DUR_P2 ++ rest)))) =
      some (pre, ts ++ (DUR_P2 ++ rest)) := by
    simpa [List.append_assoc] using hfs1
  have hfs2' : findSplit DUR_P2 (ts ++ (DUR_P2 ++ rest)) = some (ts, rest) := by
    simpa [List.append_assoc] using hfs2
  have hcon' : containsStr DUR_P2 (ts ++ (DUR_P2 ++ rest)) = true := by
    simpa [List.append_assoc] using hcon
  simp [try_extract_duration, splitnTwo, hfs1', try_extract_duration_go, h2, hcon', hfs2']

/-- C5 witness: the amended claim on a concrete transcript, giving the
5006 ms decode of `00:00:05.06`. -/
theorem c5_witness :
    try_extract_duration ("Input #0, mov".data ++ DUR_P1 ++
      ("00:00:05.06".data ++ DUR_P2 ++ "0.000000, bitrate: 1785 kb/s\n".data)) =
      some 5006 := by
  rw [c5_theorem ("Input #0, mov".data) ("00:00:05.06".data)
    ("0.000000, bitrate: 1785 kb/s\n".data) (by decide) (by decide) (by decide)]
  decide

/-- C8: in the orchestration model of `convert` — the four workers with
their modelled event outputs, the main thread joining them in the fixed
source order process-waiter, stderr-reader, stdout-reader, stdin-writer
(the `joinQueue` of `initSys`), and then sending `Done` once — every
reachable state in which `Done` has been sent has a channel consisting
of a `Done`-free prefix followed by a single final `Done`: `Done` is
emitted exactly once and no event of the job follows it. -/
theorem c8_theorem (gotCancel observedCancelled : Bool) (buf : List Nat)
    (chunks : List (List Char)) (code : Option Int) (waitOk : Bool) (st : Sys)
    (hrun : Relation.ReflTransGen Step
      (initSys (workerPending gotCancel observedCancelled buf chunks code waitOk)) st)
    (hdone : st.doneSent = true) :
    ∃ pfx : List Event, st.chan = pfx ++ [Event.done] ∧ Event.done ∉ pfx := by
  have hinit : SysInv (initSys (workerPending gotCancel observedCancelled buf chunks code waitOk)) :=
    init_inv (workerPending_done_free gotCancel observedCancelled buf chunks code waitOk)
  exact (reachable_inv hinit hrun).2.2.2.2.2 hdone

/-- C8 witness: a complete concrete run — all four workers terminate,
the main thread joins them in order and sends `Done` — whose channel is
exactly `[Done]`. -/
theorem c8_witness :
    ∃ st : Sys, Relation.ReflTransGen Step
        (initSys (workerPending false true [] [] none true)) st ∧
      st.doneSent = true ∧
      ∃ pfx : List Event, st.chan = pfx ++ [Event.done] ∧ Event.done ∉ pfx := by
  have hrun := Relation.ReflTransGen.head
    (Step.term (initSys (workerPending false true [] [] none true)) Wk.child (by decide))
    (Relation.ReflTransGen.head (Step.term _ Wk.stderrW (by decide))
      (Relation.ReflTransGen.head (Step.term _ Wk.stdoutW (by decide))
        (Relation.ReflTransGen.head (Step.term _ Wk.stdinW (by decide))
          (Relation.ReflTransGen.head
            (Step.join _ Wk.child [Wk.stderrW, Wk.stdoutW, Wk.stdinW] (by decide) (by decide))
            (Relation.ReflTransGen.head
              (Step.join _ Wk.stderrW [Wk.stdoutW, Wk.stdinW] (by decide) (by decide))
              (Relation.ReflTransGen.head
                (Step.join _ Wk.stdoutW [Wk.stdinW] (by decide) (by decide))
                (Relation.ReflTransGen.head
                  (Step.join _ Wk.stdinW [] (by decide) (by decide))
                  (Relation.ReflTransGen.single
                    (Step.sendDone _ (by decide) (by decide))))))))))
  exact ⟨_, hrun, rfl,
    c8_theorem false true [] [] none true _ hrun rfl⟩

end GifMaker
